import Mathlib

/-!
Shallow embedding of the `inf` parser (src/parser.rs, src/section.rs,
src/error.rs, src/util.rs).  Text is modelled as `List Char`, matching the
Rust code's `Peekable<Chars>` character stream; Rust `String` results are
likewise `List Char`.  Fallible code returns `Except`.
-/

namespace Inf

/-- Error type mirroring `ParseError` in src/error.rs (the `ReadFailure`
variant carries an I/O error and is never produced by the parser itself,
so it is omitted from the model). -/
inductive ParseError where
  | SectionNameEmpty : ParseError
  | SectionNameTooLong : ParseError
  | UnexpectedCharacter : Char → ParseError
  | UnterminatedString : ParseError
deriving DecidableEq, Repr

/-- Value type mirroring `Value` in src/section.rs. -/
inductive Value where
  | Raw : List Char → Value
  | List : List (List Char) → Value
deriving DecidableEq, Repr

/-- Entry type mirroring `Entry` in src/section.rs. -/
inductive Entry where
  | Item : List Char → Value → Entry
  | ValueOnly : Value → Entry
deriving DecidableEq, Repr

/-- Section type mirroring `Section` in src/section.rs. -/
structure Section where
  name : List Char
  entries : List Entry
deriving DecidableEq, Repr

/-- Rust `char::is_ascii_whitespace`: space, tab, newline, form feed,
carriage return. -/
def isAsciiWhitespace (c : Char) : Bool :=
  c = ' ' || c = '\t' || c = '\n' || c = '\x0c' || c = '\r'

/-- Rust `char::is_whitespace` (the Unicode `White_Space` property), used
by `str::trim`, `str::trim_end` and `str::trim_start`. -/
def rustIsWhitespace (c : Char) : Bool :=
  ('\t' ≤ c && c ≤ '\r') || c = ' ' || c = '\u0085' || c = '\u00A0' ||
    c = '\u1680' || ('\u2000' ≤ c && c ≤ '\u200A') || c = '\u2028' ||
    c = '\u2029' || c = '\u202F' || c = '\u205F' || c = '\u3000'

/-- Rust `str::trim_start`. -/
def trimStart (l : List Char) : List Char := l.dropWhile rustIsWhitespace

/-- Rust `str::trim_end`. -/
def trimEnd (l : List Char) : List Char :=
  (l.reverse.dropWhile rustIsWhitespace).reverse

/-- Rust `str::trim`. -/
def trim (l : List Char) : List Char := trimEnd (trimStart l)

/-- Rust `String::len`: the length of the string in UTF-8 bytes (used by
the 255-byte section-name bound in `parse_section_name`). -/
def utf8Len (l : List Char) : Nat := (l.map Char.utf8Size).sum

/-- Rust `current.strip_suffix('\r').unwrap_or(current)` in
`read_next_entry` (src/parser.rs line 131-133): drop one trailing
carriage return if present. -/
def stripOneCR (l : List Char) : List Char :=
  if l.getLast? = some '\r' then l.dropLast else l

/-- Rust `current.strip_suffix('\\')` in `read_next_entry`
(src/parser.rs line 157): `some` of the line minus its final backslash
when the line ends with a backslash, `none` otherwise.  Note the source
does not look at the character before the backslash, so an escaped
(doubled) backslash also matches. -/
def stripBackslashSuffix (l : List Char) : Option (List Char) :=
  if l.getLast? = some '\\' then some l.dropLast else none

/-- Model of `Parser::skip_comment` (src/parser.rs line 48-50):
`chars.find(|&c| c == '\n')` consumes every character up to and including
the first newline (everything, if there is none). -/
def skipComment (l : List Char) : List Char :=
  (l.dropWhile (fun c => c ≠ '\n')).drop 1

/-- Model of the quote-aware `take_while` closure in
`Parser::read_next_entry` (src/parser.rs line 117-130).  Starting from
quote flag `q`, it consumes characters — toggling the flag at every `"` —
until it meets a newline outside quotes, which is consumed and dropped.
Returns `(collected, flag at exit, remaining stream)`. -/
def scanChunk : List Char → Bool → List Char × Bool × List Char
  | [], q => ([], q, [])
  | c :: t, q =>
    let q' := if c = '"' then !q else q
    if q' || c ≠ '\n' then
      let r := scanChunk t q'
      (c :: r.1, r.2.1, r.2.2)
    else
      ([], q', t)

/-- Model of the inline-comment trimming loop in `Parser::read_next_entry`
(src/parser.rs line 140-154), including the `within_quotes` check after
the loop.  Returns the processed prefix together with a flag that is true
exactly when the line was cut at an unquoted `;` (in which case the source
applies a further `trim_end` to the prefix). -/
def trimCommentLoop : List Char → Bool → Except ParseError (List Char × Bool)
  | [], q => if q then .error .UnterminatedString else .ok ([], false)
  | c :: t, q =>
    if c = '"' then (trimCommentLoop t (!q)).map (fun p => (c :: p.1, p.2))
    else if c = ';' && !q then .ok ([], true)
    else (trimCommentLoop t q).map (fun p => (c :: p.1, p.2))

def scanChunk_rest_le (l : List Char) (q : Bool) :
    (scanChunk l q).2.2.length ≤ l.length := by
  induction l generalizing q with
  | nil => simp [scanChunk]
  | cons c t ih =>
    simp only [scanChunk]
    split <;> split <;>
      first
      | exact Nat.le_succ_of_le (ih _)
      | exact Nat.le_succ _

def scanChunk_rest_lt (l : List Char) (q : Bool) (h : l ≠ []) :
    (scanChunk l q).2.2.length < l.length := by
  cases l with
  | nil => exact absurd rfl h
  | cons c t =>
    simp only [scanChunk]
    split <;> split <;>
      first
      | exact Nat.lt_succ_of_le (scanChunk_rest_le t _)
      | exact Nat.lt_succ_of_le (Nat.le_refl _)

/-- Model of the logical-line loop in `Parser::read_next_entry`
(src/parser.rs line 116-164).  `acc` is the `line` accumulator.  Each
iteration consumes one physical chunk via `scanChunk`, strips a trailing
`\r` and trailing whitespace, checks for an unterminated quote, trims an
inline comment (trimming trailing whitespace again when a comment was
cut), and either continues after a trailing backslash or finishes the
logical line.  Returns the logical line together with the remaining
stream. -/
def readNextEntryLoop (chars acc : List Char) :
    Except ParseError (List Char × List Char) :=
  if h : chars = [] then
    -- An empty stream yields an empty chunk, which never ends in a
    -- backslash, so the loop always breaks here with `acc` unchanged.
    .ok (acc, [])
  else
    -- `(scanChunk chars false).1` is the collected physical chunk,
    -- `.2.1` the quote flag at its end, `.2.2` the remaining stream.
    if (scanChunk chars false).2.1 then .error .UnterminatedString
    else
      match trimCommentLoop (trimEnd (stripOneCR (scanChunk chars false).1)) false with
      | .error e => .error e
      | .ok p =>
        match stripBackslashSuffix (if p.2 then trimEnd p.1 else p.1) with
        | some s => readNextEntryLoop (scanChunk chars false).2.2 (acc ++ s)
        | none => .ok (acc ++ (if p.2 then trimEnd p.1 else p.1), (scanChunk chars false).2.2)
termination_by chars.length
decreasing_by
  exact scanChunk_rest_lt chars false h

/-- Model of `Parser::read_next_entry` (src/parser.rs line 112-167):
runs the loop with an empty accumulator and maps an empty logical line
to `none`. -/
def readNextEntry (chars : List Char) :
    Except ParseError (Option (List Char) × List Char) :=
  (readNextEntryLoop chars []).map
    (fun p => (if p.1 = [] then none else some p.1, p.2))

def readNextEntryLoop_rest_le :
    ∀ (n : Nat) (chars acc : List Char) (p : List Char × List Char),
      chars.length ≤ n → readNextEntryLoop chars acc = .ok p →
      p.2.length ≤ chars.length := by
  intro n
  induction n with
  | zero =>
    intro chars acc p hn h
    have hc : chars = [] := List.eq_nil_of_length_eq_zero (Nat.le_zero.mp hn)
    subst hc
    rw [readNextEntryLoop] at h
    simp only [reduceDIte, Except.ok.injEq] at h
    simp [← h]
  | succ n ih =>
    intro chars acc p hn h
    by_cases hc : chars = []
    · subst hc
      rw [readNextEntryLoop] at h
      simp only [reduceDIte, Except.ok.injEq] at h
      simp [← h]
    · rw [readNextEntryLoop, dif_neg hc] at h
      split at h
      · exact absurd h (by simp)
      · split at h
        · exact absurd h (by simp)
        · split at h
          · have hrest : (scanChunk chars false).2.2.length < chars.length :=
              scanChunk_rest_lt chars false hc
            have := ih (scanChunk chars false).2.2 _ p (by omega) h
            omega
          · cases h
            exact Nat.le_of_lt (scanChunk_rest_lt chars false hc)

def readNextEntryLoop_rest_lt (chars acc : List Char)
    (p : List Char × List Char) (hc : chars ≠ [])
    (h : readNextEntryLoop chars acc = .ok p) :
    p.2.length < chars.length := by
  rw [readNextEntryLoop, dif_neg hc] at h
  split at h
  · exact absurd h (by simp)
  · split at h
    · exact absurd h (by simp)
    · split at h
      · have := readNextEntryLoop_rest_le (scanChunk chars false).2.2.length
          (scanChunk chars false).2.2 _ p (Nat.le_refl _) h
        have := scanChunk_rest_lt chars false hc
        omega
      · cases h
        exact scanChunk_rest_lt chars false hc

def readNextEntry_rest_lt (chars : List Char)
    (o : Option (List Char)) (rest : List Char) (hc : chars ≠ [])
    (h : readNextEntry chars = .ok (o, rest)) :
    rest.length < chars.length := by
  unfold readNextEntry at h
  cases hl : readNextEntryLoop chars [] with
  | error e => rw [hl] at h; exact absurd h (by simp [Except.map])
  | ok p =>
    rw [hl] at h
    simp only [Except.map, Except.ok.injEq] at h
    have h2 : p.2 = rest := congrArg Prod.snd h
    rw [← h2]
    exact readNextEntryLoop_rest_lt chars [] p hc hl

/-- Rust `str::replace` specialised to a doubled-character pattern, as
used in `normalize_value` (src/parser.rs line 230): every non-overlapping
occurrence of `[a, a]`, scanning left to right, becomes a single `a`. -/
def replacePair (a : Char) : List Char → List Char
  | [] => []
  | [c] => [c]
  | c1 :: c2 :: t =>
    if c1 = a ∧ c2 = a then a :: replacePair a t
    else c1 :: replacePair a (c2 :: t)

/-- Model of `normalize_value` (src/parser.rs line 223-236): trim
surrounding whitespace; strip one quote from each end when the value both
starts and ends with `"`; fail with `UnterminatedString` when only one
end is quoted; then un-escape doubled quotes and doubled backslashes.
Rust's byte slice `&value[1..value.len() - 1]` panics on the one-character
value `"` (which satisfies both `starts_with` and `ends_with`); the model
renders the slice as `drop 1` followed by `dropLast`, which is the
identical list for every value of length at least 2. -/
def normalizeValue (v : List Char) : Except ParseError (List Char) :=
  let t := trim v
  if t.head? = some '"' ∧ t.getLast? = some '"' then
    .ok (replacePair '\\' (replacePair '"' ((t.drop 1).dropLast)))
  else if t.head? ≠ some '"' ∧ t.getLast? ≠ some '"' then
    .ok (replacePair '\\' (replacePair '"' t))
  else .error .UnterminatedString

/-- Model of the character loop of `parse_section_entry`
(src/parser.rs line 176-220).  `q` is `within_quotes`, `values` the
completed fields, `key` the captured key, and `cur` the characters of the
current field (the slice `line[start..i]` of the source).  A `"` toggles
the flag and stays part of the field; an unquoted `,` completes a field;
an unquoted `=` captures a key when no field has been completed yet and
is otherwise ordinary content.  At the end of the line the final field is
trimmed, normalized and appended, a single field becomes `Value.Raw`, two
or more become `Value.List`, and a captured key selects `Entry.Item`
(the source writes this constructor as `Entry::Value`; `ValueOnly` is the
name declared in src/section.rs). -/
def parseEntryLoop : List Char → Bool → List (List Char) →
    Option (List Char) → List Char → Except ParseError Entry
  | [], _q, values, key, cur =>
    match normalizeValue (trim cur) with
    | .error e => .error e
    | .ok last =>
      let vs := values ++ [last]
      let value := if vs.length = 1 then Value.Raw (vs.headD []) else Value.List vs
      match key with
      | some k => .ok (Entry.Item k value)
      | none => .ok (Entry.ValueOnly value)
  | c :: rest, q, values, key, cur =>
    if c = '"' then parseEntryLoop rest (!q) values key (cur ++ [c])
    else if c = ',' ∧ !q then
      match normalizeValue cur with
      | .error e => .error e
      | .ok v => parseEntryLoop rest q (values ++ [v]) key []
    else if c = '=' ∧ !q then
      if values.isEmpty then parseEntryLoop rest q values (some (trim cur)) []
      else parseEntryLoop rest q values key (cur ++ [c])
    else parseEntryLoop rest q values key (cur ++ [c])

/-- Model of `parse_section_entry` (src/parser.rs line 170-221), minus its
four entry assertions, which are tracked separately by `entryAsserts`. -/
def parseSectionEntry (line : List Char) : Except ParseError Entry :=
  parseEntryLoop line false [] none []

/-- The four `assert!` preconditions at the top of `parse_section_entry`
(src/parser.rs line 171-174): the line is non-empty, does not end with a
backslash, and contains no carriage return and no newline.  The Rust
program panics when any of them fails. -/
def entryAsserts (line : List Char) : Bool :=
  !line.isEmpty && !(line.getLast? == some '\\') &&
    !line.contains '\r' && !line.contains '\n'

/-- Model of the whitespace-and-comment loop after the closing `]` in
`Parser::parse_section_name` (src/parser.rs line 93-106): a `;` starts a
comment that is skipped to the end of the line, a newline ends the
header, any other ASCII whitespace is skipped, and any other character is
an `UnexpectedCharacter` error.  Returns the stream after the header
line. -/
def sectionNameTail : List Char → Except ParseError (List Char)
  | [] => .ok []
  | c :: t =>
    if c = ';' then .ok (skipComment t)
    else if c = '\n' then .ok t
    else if isAsciiWhitespace c then sectionNameTail t
    else .error (.UnexpectedCharacter c)

/-- Model of `Parser::parse_section_name` (src/parser.rs line 80-109):
the name is every character before the next `]` (the `]` itself is
consumed; when there is none the whole remaining stream becomes the
name), the name must be non-empty and at most 255 UTF-8 bytes, and the
rest of the header line may hold only ASCII whitespace or a trailing
comment. -/
def parseSectionName (chars : List Char) :
    Except ParseError (List Char × List Char) :=
  if chars.takeWhile (fun c => c ≠ ']') = [] then .error .SectionNameEmpty
  else if 255 < utf8Len (chars.takeWhile (fun c => c ≠ ']')) then
    .error .SectionNameTooLong
  else
    (sectionNameTail ((chars.dropWhile (fun c => c ≠ ']')).drop 1)).map
      (fun r => (chars.takeWhile (fun c => c ≠ ']'), r))

def skipComment_le (l : List Char) : (skipComment l).length ≤ l.length := by
  unfold skipComment
  exact ((List.drop_sublist 1 _).length_le).trans
    (List.dropWhile_sublist _).length_le

def sectionNameTail_rest_le :
    ∀ l r, sectionNameTail l = .ok r → r.length ≤ l.length := by
  intro l
  induction l with
  | nil => intro r h; simp [sectionNameTail] at h; simp [← h]
  | cons c t ih =>
    intro r h
    simp only [sectionNameTail] at h
    split at h
    · cases h
      exact Nat.le_succ_of_le (skipComment_le t)
    · split at h
      · cases h; exact Nat.le_succ _
      · split at h
        · exact Nat.le_succ_of_le (ih r h)
        · exact absurd h (by simp)

def parseSectionName_rest_le (chars name rest : List Char)
    (h : parseSectionName chars = .ok (name, rest)) :
    rest.length ≤ chars.length := by
  unfold parseSectionName at h
  split at h
  · exact absurd h (by simp)
  · split at h
    · exact absurd h (by simp)
    · cases ht : sectionNameTail ((chars.dropWhile (fun c => c ≠ ']')).drop 1) with
      | error e => rw [ht] at h; exact absurd h (by simp [Except.map])
      | ok r =>
        rw [ht] at h
        simp only [Except.map, Except.ok.injEq] at h
        have h2 : r.length = rest.length := by
          rw [show r = rest from congrArg Prod.snd h]
        have h3 := sectionNameTail_rest_le _ r ht
        have h4 : ((chars.dropWhile (fun c => c ≠ ']')).drop 1).length ≤ chars.length :=
          ((List.drop_sublist 1 _).length_le).trans
            (List.dropWhile_sublist _).length_le
        omega

/-- Model of the body loop of `Parser::parse_section`
(src/parser.rs line 69-74): while the next character exists and is not
`[`, read the next logical line and parse it into an entry, skipping
blank lines.  Returns the accumulated entry list and the remaining
stream. -/
def parseSectionBody (chars : List Char) (entries : List Entry) :
    Except ParseError (List Entry × List Char) :=
  if h0 : chars = [] then .ok (entries, chars)
  else if chars.head? = some '[' then .ok (entries, chars)
  else
    match h : readNextEntry chars with
    | .error e => .error e
    | .ok (none, rest) => parseSectionBody rest entries
    | .ok (some line, rest) =>
      match parseSectionEntry line with
      | .error e => .error e
      | .ok entry => parseSectionBody rest (entries ++ [entry])
termination_by chars.length
decreasing_by
  · exact readNextEntry_rest_lt chars none rest h0 h
  · exact readNextEntry_rest_lt chars (some line) rest h0 h

def parseSectionBody_rest_le :
    ∀ (n : Nat) (chars : List Char) (entries : List Entry)
      (p : List Entry × List Char),
      chars.length ≤ n → parseSectionBody chars entries = .ok p →
      p.2.length ≤ chars.length := by
  intro n
  induction n with
  | zero =>
    intro chars entries p hn h
    have hc : chars = [] := List.eq_nil_of_length_eq_zero (Nat.le_zero.mp hn)
    subst hc
    rw [parseSectionBody] at h
    simp only [reduceDIte, Except.ok.injEq] at h
    simp [← h]
  | succ n ih =>
    intro chars entries p hn h
    by_cases hc : chars = []
    · subst hc
      rw [parseSectionBody] at h
      simp only [reduceDIte, Except.ok.injEq] at h
      simp [← h]
    · rw [parseSectionBody, dif_neg hc] at h
      split at h
      · cases h; exact Nat.le_refl _
      · split at h
        next e heq => exact absurd h (by simp)
        next rest heq =>
          have hlt := readNextEntry_rest_lt chars none rest hc heq
          have hle := ih rest entries p (by omega) h
          omega
        next line rest heq =>
          split at h
          next e2 heq2 => exact absurd h (by simp)
          next entry heq2 =>
            have hlt := readNextEntry_rest_lt chars (some line) rest hc heq
            have hle := ih rest (entries ++ [entry]) p (by omega) h
            omega

/-- Rust `Iterator::position` as used in `Parser::parse_section`
(src/parser.rs line 57-60): index of the first element satisfying the
predicate. -/
def position (p : Section → Bool) : List Section → Option Nat
  | [] => none
  | s :: t => if p s then some 0 else (position p t).map (fun i => i + 1)

/-- Model of `Parser::parse_section` (src/parser.rs line 53-77): parse the
header name; when a section with the same name already exists (first
match, exact equality) extend its entry list in place, otherwise append a
new section; then parse the body lines into that entry list. -/
def parseSection (chars : List Char) (sections : List Section) :
    Except ParseError (List Section × List Char) :=
  match parseSectionName chars with
  | .error e => .error e
  | .ok (name, rest) =>
    match position (fun s => s.name == name) sections with
    | some i =>
      (parseSectionBody rest ((sections.getD i ⟨[], []⟩).entries)).map
        (fun p => (sections.set i ⟨(sections.getD i ⟨[], []⟩).name, p.1⟩, p.2))
    | none =>
      (parseSectionBody rest []).map
        (fun p => (sections ++ [⟨name, p.1⟩], p.2))

def parseSection_rest_le (chars : List Char) (sections : List Section)
    (p : List Section × List Char)
    (h : parseSection chars sections = .ok p) :
    p.2.length ≤ chars.length := by
  unfold parseSection at h
  split at h
  · exact absurd h (by simp)
  · rename_i name rest hname
    have hrest := parseSectionName_rest_le chars name rest hname
    split at h
    all_goals
      rename_i hidx
    · cases hb : parseSectionBody rest ((sections.getD _ ⟨[], []⟩).entries) with
      | error e => rw [hb] at h; exact absurd h (by simp [Except.map])
      | ok q =>
        rw [hb] at h
        simp only [Except.map, Except.ok.injEq] at h
        have h2 : q.2.length = p.2.length := by
          rw [show q.2 = p.2 from congrArg Prod.snd h]
        have := parseSectionBody_rest_le rest.length rest _ q (Nat.le_refl _) hb
        omega
    · cases hb : parseSectionBody rest [] with
      | error e => rw [hb] at h; exact absurd h (by simp [Except.map])
      | ok q =>
        rw [hb] at h
        simp only [Except.map, Except.ok.injEq] at h
        have h2 : q.2.length = p.2.length := by
          rw [show q.2 = p.2 from congrArg Prod.snd h]
        have := parseSectionBody_rest_le rest.length rest _ q (Nat.le_refl _) hb
        omega

/-- Model of `Parser::into_sections` (src/parser.rs line 33-45): the
top-level scan over the whole stream.  A `;` skips a comment, a `[`
parses a section, and every other character is ignored. -/
def intoSections (chars : List Char) (sections : List Section) :
    Except ParseError (List Section) :=
  match chars with
  | [] => .ok sections
  | c :: t =>
    if c = ';' then intoSections (skipComment t) sections
    else if c = '[' then
      match h : parseSection t sections with
      | .error e => .error e
      | .ok p => intoSections p.2 p.1
    else intoSections t sections
termination_by chars.length
decreasing_by
  · exact Nat.lt_succ_of_le (skipComment_le t)
  · exact Nat.lt_succ_of_le (parseSection_rest_le t sections p h)
  · exact Nat.lt_succ_of_le (Nat.le_refl _)

/-- Model of `Parser::new` followed by `Parser::into_sections`: parse a
whole document from its character stream. -/
def parseDocument (chars : List Char) : Except ParseError (List Section) :=
  intoSections chars []

/-- The shape invariant of claim C9: a `List` value always carries at
least two elements. -/
def entryListOk (e : Entry) : Prop :=
  match e with
  | .Item _ (Value.List l) => 2 ≤ l.length
  | .ValueOnly (Value.List l) => 2 ≤ l.length
  | _ => True

deriving instance DecidableEq for Except

/-! Unfolding equations for the four functions defined by well-founded
recursion, restated without dependent matches so that they can be used
for rewriting and for evaluating the model on concrete inputs. -/

theorem readNextEntryLoop_eq (chars acc : List Char) :
    readNextEntryLoop chars acc =
      if chars = [] then .ok (acc, [])
      else if (scanChunk chars false).2.1 then .error .UnterminatedString
      else
        match trimCommentLoop (trimEnd (stripOneCR (scanChunk chars false).1)) false with
        | .error e => .error e
        | .ok p =>
          match stripBackslashSuffix (if p.2 then trimEnd p.1 else p.1) with
          | some s => readNextEntryLoop (scanChunk chars false).2.2 (acc ++ s)
          | none => .ok (acc ++ (if p.2 then trimEnd p.1 else p.1), (scanChunk chars false).2.2) := by
  rw [readNextEntryLoop]
  simp only [dite_eq_ite]

theorem parseSectionBody_eq (chars : List Char) (entries : List Entry) :
    parseSectionBody chars entries =
      if chars = [] then .ok (entries, chars)
      else if chars.head? = some '[' then .ok (entries, chars)
      else
        match readNextEntry chars with
        | .error e => .error e
        | .ok (none, rest) => parseSectionBody rest entries
        | .ok (some line, rest) =>
          match parseSectionEntry line with
          | .error e => .error e
          | .ok entry => parseSectionBody rest (entries ++ [entry]) := by
  rw [parseSectionBody]
  by_cases h0 : chars = []
  · simp [h0]
  · simp only [h0, dite_false, if_false, dif_neg, not_false_iff]
    by_cases h1 : chars.head? = some '['
    · simp [h1]
    · simp only [h1, if_false]
      split <;> rename_i hre <;> simp [hre]

theorem intoSections_nil (sections : List Section) :
    intoSections [] sections = .ok sections := by
  rw [intoSections]

theorem intoSections_cons (c : Char) (t : List Char) (sections : List Section) :
    intoSections (c :: t) sections =
      if c = ';' then intoSections (skipComment t) sections
      else if c = '[' then
        match parseSection t sections with
        | .error e => .error e
        | .ok p => intoSections p.2 p.1
      else intoSections t sections := by
  rw [intoSections]
  by_cases h1 : c = ';'
  · simp [h1]
  · by_cases h2 : c = '['
    · subst h2
      simp only [reduceIte, h1]
      split <;> rename_i hps <;> simp [hps]
    · simp [h1, h2]

theorem takeWhile_all (p : Char → Bool) :
    ∀ l : List Char, (∀ a ∈ l, p a = true) → l.takeWhile p = l := by
  intro l
  induction l with
  | nil => intro _; rfl
  | cons c t ih =>
    intro h
    simp only [List.takeWhile, h c (List.mem_cons_self c t)]
    rw [ih (fun a ha => h a (List.mem_cons_of_mem c ha))]

theorem dropWhile_all (p : Char → Bool) :
    ∀ l : List Char, (∀ a ∈ l, p a = true) → l.dropWhile p = [] := by
  intro l
  induction l with
  | nil => intro _; rfl
  | cons c t ih =>
    intro h
    simp only [List.dropWhile, h c (List.mem_cons_self c t)]
    exact ih (fun a ha => h a (List.mem_cons_of_mem c ha))

theorem takeWhile_append_stop (p : Char → Bool) (b : Char) (l2 : List Char) :
    ∀ l1 : List Char, (∀ a ∈ l1, p a = true) → p b = false →
      (l1 ++ b :: l2).takeWhile p = l1 := by
  intro l1
  induction l1 with
  | nil => intro _ hb; simp [List.takeWhile, hb]
  | cons c t ih =>
    intro h hb
    simp only [List.cons_append, List.takeWhile, h c (List.mem_cons_self c t)]
    exact congrArg (fun x => c :: x) (ih (fun a ha => h a (List.mem_cons_of_mem c ha)) hb)

theorem dropWhile_append_stop (p : Char → Bool) (b : Char) (l2 : List Char) :
    ∀ l1 : List Char, (∀ a ∈ l1, p a = true) → p b = false →
      (l1 ++ b :: l2).dropWhile p = b :: l2 := by
  intro l1
  induction l1 with
  | nil => intro _ hb; simp [List.dropWhile, hb]
  | cons c t ih =>
    intro h hb
    simp only [List.cons_append, List.dropWhile, h c (List.mem_cons_self c t)]
    exact ih (fun a ha => h a (List.mem_cons_of_mem c ha)) hb

theorem mem_of_mem_trimEnd (a : Char) (l : List Char) (h : a ∈ trimEnd l) :
    a ∈ l := by
  unfold trimEnd at h
  rw [List.mem_reverse] at h
  exact List.mem_reverse.mp ((List.dropWhile_sublist _).subset h)

theorem mem_of_mem_stripOneCR (a : Char) (l : List Char)
    (h : a ∈ stripOneCR l) : a ∈ l := by
  unfold stripOneCR at h
  split at h
  · exact (List.dropLast_sublist l).subset h
  · exact h

theorem scanChunk_clean (rest : List Char) :
    ∀ l1 : List Char, '"' ∉ l1 → '\n' ∉ l1 →
      scanChunk (l1 ++ '\n' :: rest) false = (l1, false, rest) := by
  intro l1
  induction l1 with
  | nil => intro _ _; simp [scanChunk]
  | cons c t ih =>
    intro hq hn
    have hcq : c ≠ '"' := fun h => hq (h ▸ List.mem_cons_self c t)
    have hcn : c ≠ '\n' := fun h => hn (h ▸ List.mem_cons_self c t)
    have ihr := ih (fun h => hq (List.mem_cons_of_mem c h))
      (fun h => hn (List.mem_cons_of_mem c h))
    simp [scanChunk, hcq, hcn, ihr]

theorem trimCommentLoop_clean :
    ∀ m : List Char, '"' ∉ m → ';' ∉ m → trimCommentLoop m false = .ok (m, false) := by
  intro m
  induction m with
  | nil => intro _ _; rfl
  | cons c t ih =>
    intro hq hs
    have hcq : c ≠ '"' := fun h => hq (h ▸ List.mem_cons_self c t)
    have hcs : c ≠ ';' := fun h => hs (h ▸ List.mem_cons_self c t)
    have ihr := ih (fun h => hq (List.mem_cons_of_mem c h))
      (fun h => hs (List.mem_cons_of_mem c h))
    simp [trimCommentLoop, hcq, hcs, ihr, Except.map]

theorem position_lt (p : Section → Bool) :
    ∀ (l : List Section) (i : Nat), position p l = some i → i < l.length := by
  intro l
  induction l with
  | nil => intro i h; simp [position] at h
  | cons s t ih =>
    intro i h
    simp only [position] at h
    split at h
    · cases h; simp
    · cases hp : position p t with
      | none => rw [hp] at h; exact absurd h (by simp)
      | some j =>
        rw [hp] at h
        simp only [Option.map, Option.some.injEq] at h
        have := ih j hp
        simp only [List.length_cons]
        omega

theorem getD_set_self (a d : Section) :
    ∀ (l : List Section) (i : Nat), i < l.length → (l.set i a).getD i d = a := by
  intro l
  induction l with
  | nil => intro i h; simp at h
  | cons s t ih =>
    intro i h
    cases i with
    | zero => rfl
    | succ j =>
      simp only [List.set, List.getD_cons_succ]
      exact ih j (by simpa using h)

theorem getD_set_other (a d : Section) :
    ∀ (l : List Section) (i j : Nat), j ≠ i → (l.set i a).getD j d = l.getD j d := by
  intro l
  induction l with
  | nil => intro i j _; simp [List.set]
  | cons s t ih =>
    intro i j hne
    cases i with
    | zero =>
      cases j with
      | zero => exact absurd rfl hne
      | succ k => rfl
    | succ i2 =>
      cases j with
      | zero => rfl
      | succ k =>
        simp only [List.set, List.getD_cons_succ]
        exact ih i2 k (fun h => hne (by omega))

theorem map_name_set (d : Section) :
    ∀ (l : List Section) (i : Nat) (es : List Entry), i < l.length →
      (l.set i ⟨(l.getD i d).name, es⟩).map Section.name = l.map Section.name := by
  intro l
  induction l with
  | nil => intro i es h; simp at h
  | cons s t ih =>
    intro i es h
    cases i with
    | zero => rfl
    | succ j =>
      simp only [List.getD_cons_succ, List.set, List.map_cons]
      rw [ih j es (by simpa using h)]

theorem sectionNameTail_error_shape :
    ∀ (l : List Char) (e : ParseError), sectionNameTail l = .error e →
      ∃ c, e = .UnexpectedCharacter c := by
  intro l
  induction l with
  | nil => intro e h; simp [sectionNameTail] at h
  | cons c t ih =>
    intro e h
    simp only [sectionNameTail] at h
    split at h
    · exact absurd h (by simp)
    · split at h
      · exact absurd h (by simp)
      · split at h
        · exact ih e h
        · cases h; exact ⟨c, rfl⟩

theorem sectionNameTail_ws_skip :
    ∀ (ws l : List Char), (∀ a ∈ ws, isAsciiWhitespace a = true ∧ a ≠ '\n') →
      sectionNameTail (ws ++ l) = sectionNameTail l := by
  intro ws
  induction ws with
  | nil => intro l _; rfl
  | cons a t ih =>
    intro l h
    have ha := h a (List.mem_cons_self a t)
    have has : a ≠ ';' := by
      intro he
      subst he
      simpa [isAsciiWhitespace] using ha.1
    simp only [List.cons_append, sectionNameTail]
    rw [if_neg has, if_neg ha.2, if_pos ha.1]
    exact ih l (fun b hb => h b (List.mem_cons_of_mem a hb))


theorem parseEntryLoop_listOk :
    ∀ (rest : List Char) (q : Bool) (values : List (List Char))
      (key : Option (List Char)) (cur : List Char) (e : Entry),
      parseEntryLoop rest q values key cur = .ok e → entryListOk e := by
  intro rest
  induction rest with
  | nil =>
    intro q values key cur e h
    simp only [parseEntryLoop] at h
    split at h
    · exact absurd h (by simp)
    · rename_i last hnv
      split at h <;> cases h <;>
        simp only [entryListOk] <;> split <;> try trivial
      all_goals rename_i value hval hlist
      all_goals split at hlist
      · simp at hlist
      · rename_i hlen
        simp only [Entry.Item.injEq, Value.List.injEq] at hlist
        rw [← hlist.2]
        simp only [List.length_append, List.length_cons, List.length_nil] at *
        omega
      · simp at hlist
      · rename_i hlen
        simp only [Entry.ValueOnly.injEq, Value.List.injEq] at hlist
        rw [← hlist]
        simp only [List.length_append, List.length_cons, List.length_nil] at *
        omega
  | cons c t ih =>
    intro q values key cur e h
    simp only [parseEntryLoop] at h
    split at h
    · exact ih _ _ _ _ _ h
    · split at h
      · split at h
        · exact absurd h (by simp)
        · exact ih _ _ _ _ _ h
      · split at h
        · split at h
          · exact ih _ _ _ _ _ h
          · exact ih _ _ _ _ _ h
        · exact ih _ _ _ _ _ h

theorem getD_mem (d : Section) :
    ∀ (l : List Section) (i : Nat), i < l.length → l.getD i d ∈ l := by
  intro l
  induction l with
  | nil => intro i h; simp at h
  | cons s t ih =>
    intro i h
    cases i with
    | zero => exact List.mem_cons_self s t
    | succ j =>
      simp only [List.getD_cons_succ]
      exact List.mem_cons_of_mem s (ih j (by simpa using h))

theorem parseSectionBody_append :
    ∀ (n : Nat) (chars : List Char) (entries : List Entry)
      (p : List Entry × List Char),
      chars.length ≤ n → parseSectionBody chars entries = .ok p →
      ∃ extra, p.1 = entries ++ extra := by
  intro n
  induction n with
  | zero =>
    intro chars entries p hn h
    have hc : chars = [] := List.eq_nil_of_length_eq_zero (Nat.le_zero.mp hn)
    subst hc
    rw [parseSectionBody_eq] at h
    simp only [reduceIte, Except.ok.injEq] at h
    exact ⟨[], by simp [← h]⟩
  | succ n ih =>
    intro chars entries p hn h
    by_cases hc : chars = []
    · subst hc
      rw [parseSectionBody_eq] at h
      simp only [reduceIte, Except.ok.injEq] at h
      exact ⟨[], by simp [← h]⟩
    · rw [parseSectionBody_eq, if_neg hc] at h
      split at h
      · cases h; exact ⟨[], by simp⟩
      · split at h
        next e heq => exact absurd h (by simp)
        next rest heq =>
          have hlt := readNextEntry_rest_lt chars none rest hc heq
          exact ih rest entries p (by omega) h
        next line rest heq =>
          split at h
          next e2 heq2 => exact absurd h (by simp)
          next entry heq2 =>
            have hlt := readNextEntry_rest_lt chars (some line) rest hc heq
            obtain ⟨extra, hex⟩ := ih rest (entries ++ [entry]) p (by omega) h
            exact ⟨entry :: extra, by simpa using hex⟩

theorem parseSectionBody_listOk :
    ∀ (n : Nat) (chars : List Char) (entries : List Entry)
      (p : List Entry × List Char),
      chars.length ≤ n → (∀ e ∈ entries, entryListOk e) →
      parseSectionBody chars entries = .ok p → ∀ e ∈ p.1, entryListOk e := by
  intro n
  induction n with
  | zero =>
    intro chars entries p hn hok h
    have hc : chars = [] := List.eq_nil_of_length_eq_zero (Nat.le_zero.mp hn)
    subst hc
    rw [parseSectionBody_eq] at h
    simp only [reduceIte, Except.ok.injEq] at h
    intro e he
    exact hok e (by rw [show entries = p.1 from congrArg Prod.fst h]; exact he)
  | succ n ih =>
    intro chars entries p hn hok h
    by_cases hc : chars = []
    · subst hc
      rw [parseSectionBody_eq] at h
      simp only [reduceIte, Except.ok.injEq] at h
      intro e he
      exact hok e (by rw [show entries = p.1 from congrArg Prod.fst h]; exact he)
    · rw [parseSectionBody_eq, if_neg hc] at h
      split at h
      · cases h
        exact hok
      · split at h
        next e heq => exact absurd h (by simp)
        next rest heq =>
          have hlt := readNextEntry_rest_lt chars none rest hc heq
          exact ih rest entries p (by omega) hok h
        next line rest heq =>
          split at h
          next e2 heq2 => exact absurd h (by simp)
          next entry heq2 =>
            have hlt := readNextEntry_rest_lt chars (some line) rest hc heq
            have hentry : entryListOk entry := by
              refine parseEntryLoop_listOk line false [] none [] entry ?_
              rw [← parseSectionEntry]
              exact heq2
            refine ih rest (entries ++ [entry]) p (by omega) ?_ h
            intro e he
            rcases List.mem_append.mp he with h1 | h2
            · exact hok e h1
            · rw [List.mem_singleton.mp h2]
              exact hentry

theorem parseSection_listOk (chars : List Char) (sections : List Section)
    (p : List Section × List Char)
    (hsec : ∀ s ∈ sections, ∀ e ∈ s.entries, entryListOk e)
    (h : parseSection chars sections = .ok p) :
    ∀ s ∈ p.1, ∀ e ∈ s.entries, entryListOk e := by
  unfold parseSection at h
  split at h
  · exact absurd h (by simp)
  · rename_i name rest hname
    split at h
    · rename_i i hpos
      cases hb : parseSectionBody rest ((sections.getD i ⟨[], []⟩).entries) with
      | error e => rw [hb] at h; exact absurd h (by simp [Except.map])
      | ok q =>
        rw [hb] at h
        simp only [Except.map, Except.ok.injEq] at h
        have hp1 : p.1 = sections.set i ⟨(sections.getD i ⟨[], []⟩).name, q.1⟩ := by
          rw [← h]
        have hi := position_lt _ sections i hpos
        have hold : ∀ e ∈ (sections.getD i ⟨[], []⟩).entries, entryListOk e :=
          hsec _ (getD_mem _ sections i hi)
        have hq : ∀ e ∈ q.1, entryListOk e :=
          parseSectionBody_listOk rest.length rest _ q (Nat.le_refl _) hold hb
        intro s hs e he
        rw [hp1] at hs
        rcases List.mem_or_eq_of_mem_set hs with h1 | h2
        · exact hsec s h1 e he
        · subst h2
          exact hq e he
    · cases hb : parseSectionBody rest [] with
      | error e => rw [hb] at h; exact absurd h (by simp [Except.map])
      | ok q =>
        rw [hb] at h
        simp only [Except.map, Except.ok.injEq] at h
        have hp1 : p.1 = sections ++ [⟨name, q.1⟩] := by rw [← h]
        have hq : ∀ e ∈ q.1, entryListOk e :=
          parseSectionBody_listOk rest.length rest _ q (Nat.le_refl _)
            (by intro e he; simp at he) hb
        intro s hs e he
        rw [hp1] at hs
        rcases List.mem_append.mp hs with h1 | h2
        · exact hsec s h1 e he
        · rw [List.mem_singleton.mp h2] at he
          exact hq e he

theorem intoSections_listOk :
    ∀ (n : Nat) (chars : List Char) (sections out : List Section),
      chars.length ≤ n → (∀ s ∈ sections, ∀ e ∈ s.entries, entryListOk e) →
      intoSections chars sections = .ok out →
      ∀ s ∈ out, ∀ e ∈ s.entries, entryListOk e := by
  intro n
  induction n with
  | zero =>
    intro chars sections out hn hok h
    have hc : chars = [] := List.eq_nil_of_length_eq_zero (Nat.le_zero.mp hn)
    subst hc
    rw [intoSections_nil] at h
    cases h
    exact hok
  | succ n ih =>
    intro chars sections out hn hok h
    cases chars with
    | nil =>
      rw [intoSections_nil] at h
      cases h
      exact hok
    | cons c t =>
      rw [intoSections_cons] at h
      simp only [List.length_cons] at hn
      split at h
      · exact ih (skipComment t) sections out
          (le_trans (skipComment_le t) (by omega)) hok h
      · split at h
        · split at h
          next e heq => exact absurd h (by simp)
          next q hps =>
            have hle := parseSection_rest_le t sections q hps
            exact ih q.2 q.1 out (by omega)
              (parseSection_listOk t sections q hok hps) h
        · exact ih t sections out (by omega) hok h

set_option maxHeartbeats 1600000
set_option maxRecDepth 16384

/-! Claim theorems. -/

/-- C1: the spec claims that every logical line the line assembler
(`read_next_entry`) hands to the entry parser (`parse_section_entry`)
contains no embedded raw line terminator and does not end in an unescaped
continuation backslash, so the entry parser's precondition assertions can
never fire.  The code violates its own assertions: a multi-line quoted
value yields a logical line with an embedded newline, and an escaped
(doubled) trailing backslash is treated as a continuation, which can
leave the assembled line ending in a backslash; on both lines
`entryAsserts` is false, so the Rust program panics.  The final conjunct
shows the first line is reached inside a section body (the model
totalizes the panic). -/
theorem inf_c1_line_assembler_precondition_bug :
    (readNextEntry "\"a\nb\"".toList = .ok (some ("\"a\nb\"".toList), []) ∧
      entryAsserts "\"a\nb\"".toList = false) ∧
    (readNextEntry "x\\\\\n".toList = .ok (some "x\\".toList, []) ∧
      entryAsserts "x\\".toList = false) ∧
    parseDocument "[S]\n\"a\nb\"".toList =
      .ok [⟨"S".toList, [Entry.ValueOnly (Value.Raw "a\nb".toList)]⟩] := by
  refine ⟨⟨by simp [parseDocument, intoSections_cons, intoSections_nil, parseSection, position, parseSectionName,
    parseSectionBody_eq, sectionNameTail, readNextEntry, readNextEntryLoop_eq, scanChunk,
    trimCommentLoop, trimEnd, stripOneCR, stripBackslashSuffix, rustIsWhitespace,
    isAsciiWhitespace, skipComment, parseSectionEntry, parseEntryLoop, normalizeValue, trim,
    trimStart, replacePair, utf8Len, Char.utf8Size, Except.map, List.getLast?, List.dropLast,
    List.head?, List.takeWhile, List.dropWhile, List.reverse, List.reverseAux], by decide⟩, ⟨by simp [parseDocument, intoSections_cons, intoSections_nil, parseSection, position, parseSectionName,
    parseSectionBody_eq, sectionNameTail, readNextEntry, readNextEntryLoop_eq, scanChunk,
    trimCommentLoop, trimEnd, stripOneCR, stripBackslashSuffix, rustIsWhitespace,
    isAsciiWhitespace, skipComment, parseSectionEntry, parseEntryLoop, normalizeValue, trim,
    trimStart, replacePair, utf8Len, Char.utf8Size, Except.map, List.getLast?, List.dropLast,
    List.head?, List.takeWhile, List.dropWhile, List.reverse, List.reverseAux], by decide⟩, by simp [parseDocument, intoSections_cons, intoSections_nil, parseSection, position, parseSectionName,
    parseSectionBody_eq, sectionNameTail, readNextEntry, readNextEntryLoop_eq, scanChunk,
    trimCommentLoop, trimEnd, stripOneCR, stripBackslashSuffix, rustIsWhitespace,
    isAsciiWhitespace, skipComment, parseSectionEntry, parseEntryLoop, normalizeValue, trim,
    trimStart, replacePair, utf8Len, Char.utf8Size, Except.map, List.getLast?, List.dropLast,
    List.head?, List.takeWhile, List.dropWhile, List.reverse, List.reverseAux]⟩

/-- C3: parsing the section body line
`key = value1,"value2;not-a-comment"\ ; comment` followed by the physical
line `,value3,,value5` assembles one logical line (the quoted `;` is not
a comment, the unquoted `;` comment is stripped, and the continuation
joins the lines), and the entry parser splits it into
`Item(key, List([value1, value2;not-a-comment, value3, "", value5]))`
with the empty field preserved and the quotes stripped. -/
theorem inf_c3_quote_comma_splitting :
    readNextEntry ("key = value1,\"value2;not-a-comment\"\\ ; comment\n,value3,,value5".toList) =
      .ok (some ("key = value1,\"value2;not-a-comment\",value3,,value5".toList), []) ∧
    parseSectionEntry ("key = value1,\"value2;not-a-comment\",value3,,value5".toList) =
      .ok (.Item "key".toList (.List ["value1".toList, "value2;not-a-comment".toList,
        "value3".toList, "".toList, "value5".toList])) := by
  refine ⟨by simp [parseDocument, intoSections_cons, intoSections_nil, parseSection, position, parseSectionName,
    parseSectionBody_eq, sectionNameTail, readNextEntry, readNextEntryLoop_eq, scanChunk,
    trimCommentLoop, trimEnd, stripOneCR, stripBackslashSuffix, rustIsWhitespace,
    isAsciiWhitespace, skipComment, parseSectionEntry, parseEntryLoop, normalizeValue, trim,
    trimStart, replacePair, utf8Len, Char.utf8Size, Except.map, List.getLast?, List.dropLast,
    List.head?, List.takeWhile, List.dropWhile, List.reverse, List.reverseAux], by decide⟩

/-- C5 counterexample: the claim says the first unquoted `=` establishes
the key, so `a=b=c` would have key `a`.  In the code a second unquoted
`=` seen while no value field is complete re-captures the key: `a=b=c`
parses to key `b` with value `c`, and no value makes the key `a`. -/
theorem inf_c5_first_equals_counterexample :
    parseSectionEntry "a=b=c".toList = .ok (.Item "b".toList (.Raw "c".toList)) ∧
    ∀ v, parseSectionEntry "a=b=c".toList ≠ .ok (.Item "a".toList v) := by
  refine ⟨by decide, ?_⟩
  intro v h
  rw [show parseSectionEntry "a=b=c".toList = .ok (.Item "b".toList (.Raw "c".toList))
    from by decide] at h
  simp at h

/-- C5 amended: every unquoted `=` encountered while no value field has
been completed re-captures the key, taking the trimmed text between the
previous capture point and this `=` (so before the first top-level comma
the last unquoted `=` wins); an `=` inside quotes is never a key
separator (the bare line `"1+1=2"` yields `ValueOnly(Raw(1+1=2))`); and
an unquoted `=` after at least one completed field is ordinary field
content. -/
theorem inf_c5_key_equals_amended :
    parseSectionEntry "a = b".toList = .ok (.Item "a".toList (.Raw "b".toList)) ∧
    parseSectionEntry "x=y=z,w".toList =
      .ok (.Item "y".toList (.List ["z".toList, "w".toList])) ∧
    parseDocument "[Section]\n\"1+1=2\"".toList =
      .ok [⟨"Section".toList, [Entry.ValueOnly (Value.Raw "1+1=2".toList)]⟩] ∧
    parseSectionEntry "a=b,c=d".toList =
      .ok (.Item "a".toList (.List ["b".toList, "c=d".toList])) := by
  refine ⟨by decide, by decide, by simp [parseDocument, intoSections_cons, intoSections_nil, parseSection, position, parseSectionName,
    parseSectionBody_eq, sectionNameTail, readNextEntry, readNextEntryLoop_eq, scanChunk,
    trimCommentLoop, trimEnd, stripOneCR, stripBackslashSuffix, rustIsWhitespace,
    isAsciiWhitespace, skipComment, parseSectionEntry, parseEntryLoop, normalizeValue, trim,
    trimStart, replacePair, utf8Len, Char.utf8Size, Except.map, List.getLast?, List.dropLast,
    List.head?, List.takeWhile, List.dropWhile, List.reverse, List.reverseAux], by decide⟩

/-- C6 counterexample: the claim says a physical line whose final
backslash is escaped (a doubled `\\`) is not continued.  The code strips
one trailing backslash without looking at the character before it, so
the physical line `a\\` is continued and joined with the following line
`b`, assembling the single logical line `a\b`. -/
theorem inf_c6_escaped_backslash_counterexample :
    readNextEntry "a\\\\\nb".toList = .ok (some "a\\b".toList, []) := by
  simp [parseDocument, intoSections_cons, intoSections_nil, parseSection, position, parseSectionName,
    parseSectionBody_eq, sectionNameTail, readNextEntry, readNextEntryLoop_eq, scanChunk,
    trimCommentLoop, trimEnd, stripOneCR, stripBackslashSuffix, rustIsWhitespace,
    isAsciiWhitespace, skipComment, parseSectionEntry, parseEntryLoop, normalizeValue, trim,
    trimStart, replacePair, utf8Len, Char.utf8Size, Except.map, List.getLast?, List.dropLast,
    List.head?, List.takeWhile, List.dropWhile, List.reverse, List.reverseAux]

/-- C2 counterexample: the claim says header parsing fails with a syntax
error when no closing `]` is found before a line terminator or end of
input, and that the 255 limit counts characters.  In the code a missing
`]` is not an error: the whole remaining stream (line terminators
included) becomes the name; and the limit counts UTF-8 bytes, so 128
copies of the two-byte character `U+0100` already exceed it. -/
theorem inf_c2_header_validation_counterexample :
    parseSectionName "abc".toList = .ok ("abc".toList, []) ∧
    parseSectionName "ab\ncd]".toList = .ok ("ab\ncd".toList, []) ∧
    parseSectionName (List.replicate 128 'Ā' ++ [']']) = .error .SectionNameTooLong ∧
    (List.replicate 128 'Ā').length = 128 := by
  refine ⟨by decide, by decide, by decide, by decide⟩

/-- C10: characters outside any section that are neither `;` nor `[` are
silently skipped by the top-level scan: they never cause a parse error
and contribute nothing to the result. -/
theorem inf_c10_top_level_junk_skipped :
    ∀ (junk rest : List Char) (sections : List Section),
      (∀ c ∈ junk, c ≠ ';' ∧ c ≠ '[') →
      intoSections (junk ++ rest) sections = intoSections rest sections := by
  intro junk
  induction junk with
  | nil => intro rest sections _; rfl
  | cons c t ih =>
    intro rest sections h
    have hc := h c (List.mem_cons_self c t)
    rw [List.cons_append, intoSections_cons, if_neg hc.1, if_neg hc.2]
    exact ih rest sections (fun a ha => h a (List.mem_cons_of_mem c ha))

/-- Witness for C10: arbitrary text before the first header is skipped
and the document still parses. -/
theorem inf_c10_top_level_junk_skipped_witness :
    intoSections ("hello world\n".toList ++ "[A]\nx=1".toList) [] =
      .ok [⟨"A".toList, [Entry.Item "x".toList (Value.Raw "1".toList)]⟩] :=
  (inf_c10_top_level_junk_skipped "hello world\n".toList "[A]\nx=1".toList []
      (by decide)).trans
    (by simp [parseDocument, intoSections_cons, intoSections_nil, parseSection, position, parseSectionName,
    parseSectionBody_eq, sectionNameTail, readNextEntry, readNextEntryLoop_eq, scanChunk,
    trimCommentLoop, trimEnd, stripOneCR, stripBackslashSuffix, rustIsWhitespace,
    isAsciiWhitespace, skipComment, parseSectionEntry, parseEntryLoop, normalizeValue, trim,
    trimStart, replacePair, utf8Len, Char.utf8Size, Except.map, List.getLast?, List.dropLast,
    List.head?, List.takeWhile, List.dropWhile, List.reverse, List.reverseAux])


/-- C2 amended: `SectionNameEmpty` is raised exactly when the text before
the consuming `]` scan is empty; `SectionNameTooLong` exactly when that
text is non-empty and exceeds 255 UTF-8 bytes (so a 255-character ASCII
header parses and a 256-character one fails); a header with no closing
`]` is not an error — the whole remaining stream becomes the name,
subject only to the empty and length checks; and anything other than
ASCII whitespace or a `;` comment after the closing `]` fails with
`UnexpectedCharacter`. -/
theorem inf_c2_header_validation_amended :
    (∀ chars : List Char, parseSectionName chars = .error .SectionNameEmpty ↔
      chars.takeWhile (fun c => c ≠ ']') = []) ∧
    (∀ chars : List Char, parseSectionName chars = .error .SectionNameTooLong ↔
      (chars.takeWhile (fun c => c ≠ ']') ≠ [] ∧
        255 < utf8Len (chars.takeWhile (fun c => c ≠ ']')))) ∧
    parseSectionName (List.replicate 255 'a' ++ [']']) =
      .ok (List.replicate 255 'a', []) ∧
    parseSectionName (List.replicate 256 'a' ++ [']']) = .error .SectionNameTooLong ∧
    (∀ chars : List Char, ']' ∉ chars → chars ≠ [] → utf8Len chars ≤ 255 →
      parseSectionName chars = .ok (chars, [])) ∧
    (∀ (name ws t : List Char) (c : Char), ']' ∉ name → name ≠ [] →
      utf8Len name ≤ 255 →
      (∀ a ∈ ws, isAsciiWhitespace a = true ∧ a ≠ '\n') →
      c ≠ ';' → c ≠ '\n' → isAsciiWhitespace c = false →
      parseSectionName (name ++ ']' :: (ws ++ c :: t)) =
        .error (.UnexpectedCharacter c)) := by
  refine ⟨?_, ?_, by decide, by decide, ?_, ?_⟩
  · intro chars
    constructor
    · intro h
      by_cases hname : chars.takeWhile (fun c => c ≠ ']') = []
      · exact hname
      · exfalso
        unfold parseSectionName at h
        rw [if_neg hname] at h
        split at h
        · simp at h
        · cases ht : sectionNameTail ((chars.dropWhile (fun c => c ≠ ']')).drop 1) with
          | error e =>
            rw [ht] at h
            simp only [Except.map] at h
            obtain ⟨c2, hc2⟩ := sectionNameTail_error_shape _ e ht
            rw [hc2] at h
            simp at h
          | ok r =>
            rw [ht] at h
            simp [Except.map] at h
    · intro hname
      unfold parseSectionName
      rw [if_pos hname]
  · intro chars
    constructor
    · intro h
      unfold parseSectionName at h
      split at h
      · simp at h
      · rename_i hname
        split at h
        · rename_i hlen
          exact ⟨hname, hlen⟩
        · exfalso
          cases ht : sectionNameTail ((chars.dropWhile (fun c => c ≠ ']')).drop 1) with
          | error e =>
            rw [ht] at h
            simp only [Except.map] at h
            obtain ⟨c2, hc2⟩ := sectionNameTail_error_shape _ e ht
            rw [hc2] at h
            simp at h
          | ok r =>
            rw [ht] at h
            simp [Except.map] at h
    · intro ⟨hname, hlen⟩
      unfold parseSectionName
      rw [if_neg hname, if_pos hlen]
  · intro chars h1 h2 h3
    have hall : ∀ a ∈ chars, (fun c => decide (c ≠ ']')) a = true :=
      fun a ha => decide_eq_true (fun he => h1 (he ▸ ha))
    have hta := takeWhile_all _ chars hall
    have hda := dropWhile_all _ chars hall
    unfold parseSectionName
    rw [hta, hda, if_neg h2, if_neg (not_lt.mpr h3)]
    simp [sectionNameTail, Except.map]
  · intro name ws t c h1 h2 h3 hws hcs hcn hcw
    have hall : ∀ a ∈ name, (fun c => decide (c ≠ ']')) a = true :=
      fun a ha => decide_eq_true (fun he => h1 (he ▸ ha))
    have hstop : (fun c => decide (c ≠ ']')) ']' = false := by simp
    have hta := takeWhile_append_stop _ ']' (ws ++ c :: t) name hall hstop
    have hda := dropWhile_append_stop _ ']' (ws ++ c :: t) name hall hstop
    unfold parseSectionName
    rw [hta, hda, if_neg h2, if_neg (not_lt.mpr h3)]
    rw [show ((']' :: (ws ++ c :: t)).drop 1) = ws ++ c :: t from rfl]
    rw [sectionNameTail_ws_skip ws (c :: t) hws]
    simp [sectionNameTail, hcs, hcn, hcw, Except.map]

/-- Witness for C2 amended: a header with no closing bracket parses
successfully, taking the remaining text as the name. -/
theorem inf_c2_header_validation_witness :
    parseSectionName "ab".toList = .ok ("ab".toList, []) :=
  inf_c2_header_validation_amended.2.2.2.2.1 "ab".toList (by decide) (by decide)
    (by decide)

/-- C6 amended: on a comment-free, quote-free physical line, continuation
happens exactly when the line — after dropping one trailing carriage
return and trailing whitespace — ends with a backslash, whether or not
that backslash is escaped: one trailing backslash is dropped and the
following physical line is concatenated; otherwise the logical line ends
there.  A line ending in a doubled backslash is therefore also continued,
retaining the first backslash. -/
theorem inf_c6_continuation_amended :
    (∀ (l1 rest acc s : List Char), '\n' ∉ l1 → '"' ∉ l1 → ';' ∉ l1 →
      stripBackslashSuffix (trimEnd (stripOneCR l1)) = some s →
      readNextEntryLoop (l1 ++ '\n' :: rest) acc = readNextEntryLoop rest (acc ++ s)) ∧
    (∀ (l1 rest acc : List Char), '\n' ∉ l1 → '"' ∉ l1 → ';' ∉ l1 →
      stripBackslashSuffix (trimEnd (stripOneCR l1)) = none →
      readNextEntryLoop (l1 ++ '\n' :: rest) acc =
        .ok (acc ++ trimEnd (stripOneCR l1), rest)) ∧
    readNextEntry "x\\\\\ny".toList = .ok (some "x\\y".toList, []) := by
  refine ⟨?_, ?_, by simp [parseDocument, intoSections_cons, intoSections_nil, parseSection, position, parseSectionName,
      parseSectionBody_eq, sectionNameTail, readNextEntry, readNextEntryLoop_eq, scanChunk,
      trimCommentLoop, trimEnd, stripOneCR, stripBackslashSuffix, rustIsWhitespace,
      isAsciiWhitespace, skipComment, parseSectionEntry, parseEntryLoop, normalizeValue, trim,
      trimStart, replacePair, utf8Len, Char.utf8Size, Except.map, List.getLast?, List.dropLast,
      List.head?, List.takeWhile, List.dropWhile, List.reverse, List.reverseAux]⟩
  · intro l1 rest acc s hn hq hs hstrip
    have hne : l1 ++ '\n' :: rest ≠ [] := by simp
    have hscan := scanChunk_clean rest l1 hq hn
    have hm2 : '"' ∉ trimEnd (stripOneCR l1) :=
      fun hm => hq (mem_of_mem_stripOneCR _ _ (mem_of_mem_trimEnd _ _ hm))
    have hm3 : ';' ∉ trimEnd (stripOneCR l1) :=
      fun hm => hs (mem_of_mem_stripOneCR _ _ (mem_of_mem_trimEnd _ _ hm))
    rw [readNextEntryLoop_eq, if_neg hne]
    rw [hscan]
    simp only [trimCommentLoop_clean _ hm2 hm3, hstrip, Bool.false_eq_true, if_false,
      reduceIte]
  · intro l1 rest acc hn hq hs hstrip
    have hne : l1 ++ '\n' :: rest ≠ [] := by simp
    have hscan := scanChunk_clean rest l1 hq hn
    have hm2 : '"' ∉ trimEnd (stripOneCR l1) :=
      fun hm => hq (mem_of_mem_stripOneCR _ _ (mem_of_mem_trimEnd _ _ hm))
    have hm3 : ';' ∉ trimEnd (stripOneCR l1) :=
      fun hm => hs (mem_of_mem_stripOneCR _ _ (mem_of_mem_trimEnd _ _ hm))
    rw [readNextEntryLoop_eq, if_neg hne]
    rw [hscan]
    simp only [trimCommentLoop_clean _ hm2 hm3, hstrip, Bool.false_eq_true, if_false,
      reduceIte]

/-- Witness for C6 amended: a line ending in a single backslash is
continued onto the following line. -/
theorem inf_c6_continuation_amended_witness :
    readNextEntryLoop ("ab\\".toList ++ '\n' :: "c".toList) [] =
      .ok ("abc".toList, []) :=
  ((inf_c6_continuation_amended.1 "ab\\".toList "c".toList [] "ab".toList
      (by decide) (by decide) (by decide) (by decide)).trans (by simp [parseDocument, intoSections_cons, intoSections_nil, parseSection, position, parseSectionName,
      parseSectionBody_eq, sectionNameTail, readNextEntry, readNextEntryLoop_eq, scanChunk,
      trimCommentLoop, trimEnd, stripOneCR, stripBackslashSuffix, rustIsWhitespace,
      isAsciiWhitespace, skipComment, parseSectionEntry, parseEntryLoop, normalizeValue, trim,
      trimStart, replacePair, utf8Len, Char.utf8Size, Except.map, List.getLast?, List.dropLast,
      List.head?, List.takeWhile, List.dropWhile, List.reverse, List.reverseAux]))


/-- C7: field normalization trims surrounding whitespace; a field that
both starts and ends with `"` has exactly one leading and one trailing
quote stripped (expressed by the decomposition `trim v = '"' :: core ++
['"']`); a quote on only one end fails with `UnterminatedString`; a field
with quotes on neither end is accepted unquoted; afterwards every doubled
quote becomes a single quote and every doubled backslash a single
backslash, while percent signs are left untouched. -/
theorem inf_c7_normalize_value :
    (∀ (v core : List Char), trim v = '"' :: core ++ ['"'] →
      normalizeValue v = .ok (replacePair '\\' (replacePair '"' core))) ∧
    (∀ v : List Char, (trim v).head? = some '"' → (trim v).getLast? ≠ some '"' →
      normalizeValue v = .error .UnterminatedString) ∧
    (∀ v : List Char, (trim v).head? ≠ some '"' → (trim v).getLast? = some '"' →
      normalizeValue v = .error .UnterminatedString) ∧
    (∀ v : List Char, (trim v).head? ≠ some '"' → (trim v).getLast? ≠ some '"' →
      normalizeValue v = .ok (replacePair '\\' (replacePair '"' (trim v)))) ∧
    normalizeValue "  \"a\"\"b\"  ".toList = .ok "a\"b".toList ∧
    normalizeValue "a\\\\b".toList = .ok "a\\b".toList ∧
    normalizeValue "%50%%".toList = .ok "%50%%".toList := by
  refine ⟨?_, ?_, ?_, ?_, by decide, by decide, by decide⟩
  · intro v core hshape
    have hsh2 : trim v = ('"' :: core) ++ ['"'] := by simpa using hshape
    have hhead : (trim v).head? = some '"' := by rw [hsh2]; rfl
    have hlast : (trim v).getLast? = some '"' := by
      rw [hsh2, List.getLast?_concat]
    unfold normalizeValue
    rw [if_pos ⟨hhead, hlast⟩, hsh2]
    simp
  · intro v hhead hlast
    unfold normalizeValue
    rw [if_neg (fun hb => hlast hb.2), if_neg (fun hb => hb.1 hhead)]
  · intro v hhead hlast
    unfold normalizeValue
    rw [if_neg (fun hb => hhead hb.1), if_neg (fun hb => hb.2 hlast)]
  · intro v hhead hlast
    unfold normalizeValue
    rw [if_neg (fun hb => hhead hb.1), if_pos ⟨hhead, hlast⟩]

/-- Witness for C7: a quoted field has its surrounding quotes stripped. -/
theorem inf_c7_normalize_value_witness :
    normalizeValue "\"ab\"".toList =
      .ok (replacePair '\\' (replacePair '"' "ab".toList)) :=
  inf_c7_normalize_value.1 "\"ab\"".toList "ab".toList (by decide)

/-- C9: in every successfully parsed document, every `List` value has at
least two elements; a line that produced exactly one field is represented
as `Raw`, never as a one-element `List`. -/
theorem inf_c9_list_invariant :
    ∀ (chars : List Char) (sections : List Section),
      parseDocument chars = .ok sections →
      ∀ s ∈ sections, ∀ e ∈ s.entries, entryListOk e := by
  intro chars sections h
  exact intoSections_listOk chars.length chars [] sections (Nat.le_refl _)
    (by intro s hs; simp at hs) h

/-- Witness for C9: a two-field line produces a two-element list, which
satisfies the invariant. -/
theorem inf_c9_list_invariant_witness :
    entryListOk (Entry.Item "x".toList (Value.List ["1".toList, "2".toList])) :=
  inf_c9_list_invariant "[A]\nx=1,2".toList
    [⟨"A".toList, [Entry.Item "x".toList (Value.List ["1".toList, "2".toList])]⟩]
    (by simp [parseDocument, intoSections_cons, intoSections_nil, parseSection, position, parseSectionName,
      parseSectionBody_eq, sectionNameTail, readNextEntry, readNextEntryLoop_eq, scanChunk,
      trimCommentLoop, trimEnd, stripOneCR, stripBackslashSuffix, rustIsWhitespace,
      isAsciiWhitespace, skipComment, parseSectionEntry, parseEntryLoop, normalizeValue, trim,
      trimStart, replacePair, utf8Len, Char.utf8Size, Except.map, List.getLast?, List.dropLast,
      List.head?, List.takeWhile, List.dropWhile, List.reverse, List.reverseAux])
    ⟨"A".toList, [Entry.Item "x".toList (Value.List ["1".toList, "2".toList])]⟩
    (by decide)
    (Entry.Item "x".toList (Value.List ["1".toList, "2".toList]))
    (by decide)

/-- C4: a duplicate section header merges into the existing section (by
exact string equality on the name): the concrete document from the spec
parses into one section `A` holding both entries followed by an empty
section `B`; and in general, when the header name is already present at
first index `i`, parsing the section changes no section name (so no new
section is created and order is preserved), appends the new entries to
the entries of section `i`, and leaves every other section unchanged. -/
theorem inf_c4_duplicate_section_merge :
    parseDocument "[A]\nx=1\n[B]\n[A]\ny=2".toList = .ok
      [⟨"A".toList, [Entry.Item "x".toList (Value.Raw "1".toList),
        Entry.Item "y".toList (Value.Raw "2".toList)]⟩, ⟨"B".toList, []⟩] ∧
    (∀ (chars : List Char) (sections : List Section) (name rest1 : List Char)
      (i : Nat) (p : List Section × List Char),
      parseSectionName chars = .ok (name, rest1) →
      position (fun s => s.name == name) sections = some i →
      parseSection chars sections = .ok p →
      p.1.map Section.name = sections.map Section.name ∧
      (∃ extra, p.1.getD i ⟨[], []⟩ =
        ⟨(sections.getD i ⟨[], []⟩).name,
         (sections.getD i ⟨[], []⟩).entries ++ extra⟩) ∧
      (∀ j, j ≠ i → p.1.getD j ⟨[], []⟩ = sections.getD j ⟨[], []⟩)) := by
  constructor
  · simp [parseDocument, intoSections_cons, intoSections_nil, parseSection, position, parseSectionName,
      parseSectionBody_eq, sectionNameTail, readNextEntry, readNextEntryLoop_eq, scanChunk,
      trimCommentLoop, trimEnd, stripOneCR, stripBackslashSuffix, rustIsWhitespace,
      isAsciiWhitespace, skipComment, parseSectionEntry, parseEntryLoop, normalizeValue, trim,
      trimStart, replacePair, utf8Len, Char.utf8Size, Except.map, List.getLast?, List.dropLast,
      List.head?, List.takeWhile, List.dropWhile, List.reverse, List.reverseAux]
  · intro chars sections name rest1 i p hname hpos h
    unfold parseSection at h
    simp only [hname, hpos] at h
    cases hb : parseSectionBody rest1 ((sections.getD i ⟨[], []⟩).entries) with
    | error e => rw [hb] at h; exact absurd h (by simp [Except.map])
    | ok q =>
      rw [hb] at h
      simp only [Except.map, Except.ok.injEq] at h
      have hi := position_lt _ sections i hpos
      have hp1 : p.1 = sections.set i ⟨(sections.getD i ⟨[], []⟩).name, q.1⟩ := by
        rw [← h]
      obtain ⟨extra, hq1⟩ :=
        parseSectionBody_append rest1.length rest1 _ q (Nat.le_refl _) hb
      refine ⟨?_, ⟨extra, ?_⟩, ?_⟩
      · rw [hp1]
        exact map_name_set ⟨[], []⟩ sections i q.1 hi
      · rw [hp1, getD_set_self _ _ sections i hi, hq1]
      · intro j hj
        rw [hp1, getD_set_other _ _ sections i j hj]

/-- Witness for C4: re-opening section `A` appends to the existing
section, leaving the list of section names unchanged. -/
theorem inf_c4_duplicate_section_merge_witness :
    ([⟨"A".toList, [Entry.Item "x".toList (Value.Raw "1".toList),
        Entry.Item "y".toList (Value.Raw "2".toList)]⟩] : List Section).map Section.name =
      [(⟨"A".toList, [Entry.Item "x".toList (Value.Raw "1".toList)]⟩ : Section)].map
        Section.name :=
  (inf_c4_duplicate_section_merge.2 "A]\ny=2".toList
    [⟨"A".toList, [Entry.Item "x".toList (Value.Raw "1".toList)]⟩]
    "A".toList "y=2".toList 0
    ([⟨"A".toList, [Entry.Item "x".toList (Value.Raw "1".toList),
        Entry.Item "y".toList (Value.Raw "2".toList)]⟩], [])
    (by decide) (by decide) (by simp [parseDocument, intoSections_cons, intoSections_nil, parseSection, position, parseSectionName,
      parseSectionBody_eq, sectionNameTail, readNextEntry, readNextEntryLoop_eq, scanChunk,
      trimCommentLoop, trimEnd, stripOneCR, stripBackslashSuffix, rustIsWhitespace,
      isAsciiWhitespace, skipComment, parseSectionEntry, parseEntryLoop, normalizeValue, trim,
      trimStart, replacePair, utf8Len, Char.utf8Size, Except.map, List.getLast?, List.dropLast,
      List.head?, List.takeWhile, List.dropWhile, List.reverse, List.reverseAux])).1


end Inf
